import Mathlib

/-!
Verification development for the geometry-nodes evaluator
(`source/blender/modifiers/intern/MOD_nodes_evaluator.cc`) and the GPU
shader create-info validator (`source/blender/gpu/intern/gpu_shader_create_info.cc`).

The C++ code is shallowly embedded: pure fragments become Lean functions,
stateful fragments become explicit state passing, and code paths guarded by
`BLI_assert` (which would be undefined behaviour when the assertion fails in a
release build) are modelled as `Option`-returning functions that yield `none`
exactly on the asserted-impossible paths.
-/

namespace GNEval

/-- Mirrors `enum class ValueUsage` in MOD_nodes_evaluator.cc. -/
inductive ValueUsage where
  | Required
  | Maybe
  | Unused
deriving DecidableEq, Repr

/-- Mirrors `enum class NodeScheduleState` in MOD_nodes_evaluator.cc. -/
inductive NodeScheduleState where
  | NotScheduled
  | Scheduled
  | Running
  | RunningAndRescheduled
deriving DecidableEq, Repr

/-- Abstract socket values; the evaluator treats values opaquely through the
type descriptor, so a `Nat` stands in for an arbitrary value buffer. -/
abbrev Val := Nat

/-- A `DSocket`: a socket identity together with whether it is an input socket
(the evaluator only ever queries `is_input()` on origin sockets). -/
structure DSocket where
  id : Nat
  input : Bool
deriving DecidableEq, Repr

/-- Mirrors `struct MultiInputValue`: ordered origin sockets, one optional
value per origin slot, and the count of provided (non-null) values. -/
structure MultiInputValue where
  origins : List DSocket
  values : List (Option Val)
  provided_value_count : Nat
deriving DecidableEq, Repr

namespace MultiInputValue

/-- Mirrors `MultiInputValue::missing_values`:
`values.size() - provided_value_count`. -/
def missing_values (m : MultiInputValue) : Nat :=
  m.values.length - m.provided_value_count

/-- Mirrors `MultiInputValue::all_values_available`. -/
def all_values_available (m : MultiInputValue) : Bool :=
  m.missing_values = 0

/-- Loop body of `MultiInputValue::find_available_index`: scan indices in
order, skipping slots that are already filled (`values[i] != nullptr`) and
slots whose declared origin differs from the requested one. -/
def findAvailableIndexGo (origin : DSocket) :
    List DSocket → List (Option Val) → Nat → Option Nat
  | o :: os, v :: vs, i =>
    if v ≠ none then findAvailableIndexGo origin os vs (i + 1)
    else if o ≠ origin then findAvailableIndexGo origin os vs (i + 1)
    else some i
  | _, _, _ => none

/-- Mirrors `MultiInputValue::find_available_index`; the
`BLI_assert_unreachable()` fall-through (no matching empty slot) becomes
`none`. -/
def find_available_index (m : MultiInputValue) (origin : DSocket) : Option Nat :=
  findAvailableIndexGo origin m.origins m.values 0

/-- Mirrors `MultiInputValue::add_value`: store the value in the first empty
slot whose declared origin matches, and increment `provided_value_count`.
Returns `none` on the asserted-unreachable path. -/
def add_value (m : MultiInputValue) (origin : DSocket) (value : Val) :
    Option MultiInputValue :=
  (m.find_available_index origin).map fun index =>
    { m with
      values := m.values.set index (some value)
      provided_value_count := m.provided_value_count + 1 }

end MultiInputValue

/-- The value part of `struct InputState`: either a `SingleInputValue`
(an optional value) or a `MultiInputValue`. -/
inductive SocketValue where
  | single (value : Option Val)
  | multi (m : MultiInputValue)
deriving DecidableEq, Repr

/-- Mirrors the parts of `struct InputState` that the demand-propagation
operations touch. -/
structure InputState where
  value : SocketValue
  usage : ValueUsage := .Maybe
  was_ready_for_execution : Bool := false
  force_compute : Bool := false
deriving DecidableEq, Repr

/-- Mirrors `GeometryNodesEvaluator::destruct_input_value_if_exists`: null all
stored values (destructing them) and reset the provided-value count. -/
def destruct_input_value (st : InputState) : InputState :=
  match st.value with
  | .single _ => { st with value := .single none }
  | .multi m =>
      { st with
        value := .multi
          { m with values := m.values.map (fun _ => none), provided_value_count := 0 } }

/-- Mirrors `GeometryNodesEvaluator::load_unlinked_input_value`: read the
origin socket's declared value (`sv origin`, abstracting
`get_value_from_socket` including its type conversion) and install it in the
input's slot. For multi-inputs the slot matching the origin is used via
`add_value`. Logging calls are omitted (they do not change evaluator state). -/
def load_unlinked_input_value (sv : DSocket → Val) (st : InputState)
    (origin_socket : DSocket) : Option InputState :=
  match st.value with
  | .multi m =>
      (m.add_value origin_socket (sv origin_socket)).map fun m' =>
        { st with value := .multi m' }
  | .single _ => some { st with value := .single (some (sv origin_socket)) }

/-- Result of `GeometryNodesEvaluator::set_input_required`: the updated input
state, the node's updated `missing_required_inputs` counter, the
`delayed_required_outputs` recorded on the locked node, the sequence of origin
sockets whose values were loaded immediately via `load_unlinked_input_value`,
and the boolean return value. -/
structure SetInputRequiredResult where
  state : InputState
  missing_required_inputs : Int
  delayed_required_outputs : List DSocket
  loaded_origins : List DSocket
  result : Bool
deriving DecidableEq, Repr

/-- Number of values that still have to be added until the input is
"complete", as computed inside `set_input_required`: the missing slot count
for a multi-input, and 1 or 0 for a single input depending on whether its
value has been provided. -/
def inputMissingValues (st : InputState) : Nat :=
  match st.value with
  | .multi m => m.missing_values
  | .single v => if v = none then 1 else 0

/-- Loop of `set_input_required` over the collected origin sockets: input
sockets are loaded immediately (decrementing the missing counter), output
sockets are recorded as delayed required-output notifications and set the
`requested_from_other_node` flag. -/
def requireFromOrigins (sv : DSocket → Val) :
    List DSocket → InputState → Int → List DSocket → List DSocket → Bool →
    Option (InputState × Int × List DSocket × List DSocket × Bool)
  | [], st, missing, delayed, loaded, requested =>
      some (st, missing, delayed, loaded, requested)
  | origin :: rest, st, missing, delayed, loaded, requested =>
    if origin.input then
      match load_unlinked_input_value sv st origin with
      | some st' =>
          requireFromOrigins sv rest st' (missing - 1) delayed (loaded ++ [origin]) requested
      | none => none
    else
      requireFromOrigins sv rest st missing (delayed ++ [origin]) loaded true

/-- Mirrors `GeometryNodesEvaluator::set_input_required`. Parameters:
`sv` abstracts `get_value_from_socket`; `input_socket` is the socket being
required; `origins` is the list collected by `foreach_origin_socket`;
`st` is the input's state; `missing0` is the node's current
`missing_required_inputs`. The `BLI_assert(usage != Unused)` is modelled as
`none`. -/
def set_input_required (sv : DSocket → Val) (input_socket : DSocket)
    (origins : List DSocket) (st : InputState) (missing0 : Int) :
    Option SetInputRequiredResult :=
  if st.usage = .Unused then none
  else if st.was_ready_for_execution then some ⟨st, missing0, [], [], false⟩
  else if st.usage = .Required then some ⟨st, missing0, [], [], true⟩
  else
    let st1 : InputState := { st with usage := .Required }
    let missing_values : Nat := inputMissingValues st1
    if missing_values = 0 then some ⟨st1, missing0, [], [], false⟩
    else
      let missing1 : Int := missing0 + missing_values
      if origins.isEmpty then
        match load_unlinked_input_value sv st1 input_socket with
        | some st2 => some ⟨st2, missing1 - 1, [], [input_socket], false⟩
        | none => none
      else
        (requireFromOrigins sv origins st1 missing1 [] [] false).map
          fun (st2, missing2, delayed, loaded, requested) =>
            ⟨st2, missing2, delayed, loaded, requested⟩

/-- Mirrors `GeometryNodesEvaluator::set_input_unused`. Returns the updated
input state and the `delayed_unused_outputs` recorded on the locked node.
The `BLI_assert(usage != Required)` is modelled as `none`. -/
def set_input_unused (origins : List DSocket) (st : InputState) :
    Option (InputState × List DSocket) :=
  if st.usage = .Required then none
  else if st.usage = .Unused then some (st, [])
  else
    let st1 := destruct_input_value { st with usage := .Unused }
    if st1.was_ready_for_execution then some (st1, [])
    else some (st1, origins.filter (fun o => !o.input))

/-- Mirrors `struct OutputState`. `potential_users` is an `int` in the
source, so it is embedded as `Int`. -/
structure OutputState where
  has_been_computed : Bool := false
  output_usage : ValueUsage := .Maybe
  output_usage_for_execution : ValueUsage := .Maybe
  potential_users : Int := 0
deriving DecidableEq, Repr

/-- Mirrors `NodeParamsProvider::output_is_required` (restricted to the output
state it reads): `false` once the output has been computed, otherwise whether
the execution-snapshot usage is not `Unused`. -/
def output_is_required (o : OutputState) : Bool :=
  if o.has_been_computed then false
  else o.output_usage_for_execution ≠ .Unused

/-- Mirrors `NodeParamsProvider::lazy_output_is_required`: `false` once the
output has been computed, otherwise whether the execution-snapshot usage is
`Required`. -/
def lazy_output_is_required (o : OutputState) : Bool :=
  if o.has_been_computed then false
  else o.output_usage_for_execution = .Required

/-- A node handle, as recorded in `delayed_scheduled_nodes`. -/
abbrev DNode := Nat

/-- Mirrors `GeometryNodesEvaluator::schedule_node` acting on the node's
schedule state and the locked node's `delayed_scheduled_nodes` vector:
from `NotScheduled` the node becomes `Scheduled` and is recorded for
enqueueing after unlock; `Scheduled` and `RunningAndRescheduled` are no-ops;
`Running` becomes `RunningAndRescheduled` without enqueueing. -/
def schedule_node (st : NodeScheduleState) (delayed : List DNode) (node : DNode) :
    NodeScheduleState × List DNode :=
  match st with
  | .NotScheduled => (.Scheduled, delayed ++ [node])
  | .Scheduled => (.Scheduled, delayed)
  | .Running => (.RunningAndRescheduled, delayed)
  | .RunningAndRescheduled => (.RunningAndRescheduled, delayed)

/-- Mirrors the scheduling tail of
`GeometryNodesEvaluator::node_task_postprocessing`: remember whether a
reschedule was requested (`schedule_state == RunningAndRescheduled`), reset
the state to `NotScheduled`, and if a reschedule was requested while the node
has not finished, call `schedule_node` again. `node_has_finished` is the
result of `finish_node_if_possible`. -/
def node_task_postprocessing_sched (st : NodeScheduleState) (node_has_finished : Bool)
    (delayed : List DNode) (node : DNode) : NodeScheduleState × List DNode :=
  let reschedule_requested := st = NodeScheduleState.RunningAndRescheduled
  let st1 := NodeScheduleState.NotScheduled
  if reschedule_requested ∧ ¬node_has_finished then schedule_node st1 delayed node
  else (st1, delayed)

/-- The socket-level data `execute_unknown_node` reads from an output socket:
availability and the result of `get_socket_cpp_type` (a type identifier, or
`none` for non-data sockets). -/
structure OutputSocketRef where
  available : Bool
  ty : Option Nat
deriving DecidableEq, Repr

/-- Forwarding events emitted by `execute_unknown_node`: pairs of
(output socket index, type id) meaning that a freshly constructed default
value of that type was forwarded from that socket. -/
def executeUnknownForwards (sockets : List OutputSocketRef) : List (Nat × Nat) :=
  (List.range sockets.length).filterMap fun i =>
    match sockets[i]? with
    | some sock =>
        if sock.available then
          match sock.ty with
          | some t => some (i, t)
          | none => none
        else none
    | none => none

/-- Mirrors `GeometryNodesEvaluator::execute_unknown_node`: for every
available output socket with a data type, mark the output computed and
forward the type's default value. Returns the updated output states and the
list of forwarded (socket index, type) pairs. -/
def execute_unknown_node (sockets : List OutputSocketRef) (outputs : List OutputState) :
    List OutputState × List (Nat × Nat) :=
  (List.zipWith
      (fun sock o =>
        if sock.available ∧ sock.ty.isSome then { o with has_been_computed := true }
        else o)
      sockets outputs,
    executeUnknownForwards sockets)

/-- Whether a target input socket received the original buffer or a freshly
copy-constructed one in `forward_to_sockets_with_same_type`. -/
inductive ForwardedValue where
  | original
  | copy
deriving DecidableEq, Repr

/-- Mirrors `GeometryNodesEvaluator::forward_to_sockets_with_same_type`.
The result lists, in call order, which socket received which kind of buffer
via `add_value_to_input_socket`; the boolean records whether the value was
destructed instead. With zero targets the value is destructed; with one
target it is handed over unchanged; with several targets a copy is
constructed for every target except the first (`to_sockets.drop_front(1)`),
and the original buffer is then forwarded to `to_sockets[0]`. -/
def forward_to_sockets_with_same_type (to_sockets : List DSocket) :
    List (DSocket × ForwardedValue) × Bool :=
  match to_sockets with
  | [] => ([], true)
  | [to_socket] => ([(to_socket, .original)], false)
  | first :: rest =>
      ((rest.map fun s => (s, ForwardedValue.copy)) ++ [(first, .original)], false)

/-- A dynamic type descriptor as seen by `convert_value`: an identity and,
when the type is a `ValueOrFieldCPPType` (a field-capable wrapper), the
identity of its base type. -/
structure CPPType where
  id : Nat
  fieldBase : Option Nat
deriving DecidableEq, Repr

/-- What `GeometryNodesEvaluator::convert_value` did to produce the
destination buffer. -/
inductive ConvResult where
  /-- Same type: plain `copy_construct`. -/
  | copiedSame
  /-- Both types are field wrappers with convertible bases and the source
  holds a field: wrap the base conversion in a `FieldOperation` (lazy). -/
  | fieldLazy
  /-- Both types are field wrappers with convertible bases and the source
  holds a plain value: eager base-level conversion. -/
  | baseEager
  /-- A registry conversion between the two wrapper types themselves. -/
  | directConverted
  /-- No conversion available: the destination type's default value. -/
  | defaulted
deriving DecidableEq, Repr

/-- Mirrors `GeometryNodesEvaluator::convert_value`. `baseConv b1 b2`
abstracts `conversions_.is_convertible(base1, base2)` on base types and
`conv t1 t2` abstracts `conversions_.is_convertible(from_type, to_type)` on
the full types; `fromHoldsField` abstracts
`from_field_type->is_field(from_value)`. The function is total: when no
conversion is available the destination receives the default value. -/
def convert_value (baseConv : Nat → Nat → Bool) (conv : CPPType → CPPType → Bool)
    (fromTy toTy : CPPType) (fromHoldsField : Bool) : ConvResult :=
  if fromTy = toTy then .copiedSame
  else
    let fallback : ConvResult :=
      if conv fromTy toTy then .directConverted else .defaulted
    match fromTy.fieldBase, toTy.fieldBase with
    | some fromBase, some toBase =>
        if baseConv fromBase toBase then
          if fromHoldsField then .fieldLazy else .baseEager
        else fallback
    | _, _ => fallback

/-!
Single-node protocol model for a node that does not support laziness.

The evaluator serializes all accesses to one `NodeState` through its mutex,
so the interleaving of the locked regions (plus the single unlocked
execution, which is exclusive because only one task at a time can have moved
the node from `Scheduled` to `Running`) is modelled as a sequence of atomic
steps on the node's state. Cross-node interactions appear as environment
events: `schedule` (a delayed schedule from `add_value_to_input_socket` or
initial scheduling), `notifyRequired` (`send_output_required_notification`)
and `notifyUnused` (`send_output_unused_notification`). Inputs are abstracted
into the nondeterministic `inputs_ready` result of
`prepare_node_inputs_for_execution` and the `force_inputs_ok` part of
`finish_node_if_possible`, which over-approximates the real behaviour.
-/

/-- Where a node task currently stands for a node picked up from the pool. -/
inductive TaskPhase where
  /-- No task is processing the node. -/
  | idle
  /-- `node_task_preprocessing` has run; `do_exec` is its result. -/
  | preDone (do_exec : Bool)
  /-- The (possibly skipped) execution has happened;
  `node_task_postprocessing` is still pending. -/
  | execDone (do_exec : Bool)
deriving DecidableEq, Repr

/-- The fields of `NodeState` that the non-lazy execution protocol touches. -/
structure NodeSt where
  schedule_state : NodeScheduleState
  has_been_executed : Bool
  node_has_finished : Bool
  non_lazy_inputs_handled : Bool
  outputs : List OutputState
  phase : TaskPhase
deriving DecidableEq, Repr

/-- Environment and task events interleaved on one node. -/
inductive Ev where
  /-- A delayed `schedule_node` call from another locked region. -/
  | schedule
  /-- A worker picks the node up and runs `node_task_preprocessing`;
  `inputs_ready` abstracts `prepare_node_inputs_for_execution`. -/
  | pickup (inputs_ready : Bool)
  /-- The unlocked `execute_node` call for a non-lazy node. Every output
  whose execution-snapshot usage is not `Unused` is computed (the
  multi-function and unknown-node paths compute every available data output,
  and `assert_expected_outputs_have_been_computed` states this contract for
  geometry-node callbacks); `extra` lets the callback additionally compute
  outputs whose snapshot usage was `Unused`. -/
  | execStep (extra : Nat → Bool)
  /-- Nothing to execute (`do_execute_node` was false). -/
  | skipStep
  /-- `node_task_postprocessing`; `force_inputs_ok` abstracts the
  force-compute input check inside `finish_node_if_possible`. -/
  | postStep (force_inputs_ok : Bool)
  /-- `send_output_required_notification` for output `i`. -/
  | notifyRequired (i : Nat)
  /-- `send_output_unused_notification` for output `i`. -/
  | notifyUnused (i : Nat)

/-- Output updates of `execute_node` for a non-lazy node, starting at output
index `i`: an output becomes computed if it was computed already, if its
execution-snapshot usage is not `Unused`, or if the callback chose to compute
it anyway (`extra`). -/
def execOutputsGo (extra : Nat → Bool) : Nat → List OutputState → List OutputState
  | _, [] => []
  | i, o :: rest =>
      { o with
        has_been_computed :=
          o.has_been_computed || decide (o.output_usage_for_execution ≠ .Unused) || extra i } ::
        execOutputsGo extra (i + 1) rest

/-- Mirrors `node_task_preprocessing` for a node that does not support
laziness, entered with the `BLI_assert(schedule_state == Scheduled)`
satisfied: move to `Running`; stop if the node has finished; snapshot every
output's usage and check whether some required output is uncomputed
(`prepare_node_outputs_for_execution`); mark the non-lazy inputs handled
(`require_non_lazy_inputs`, input side abstracted); stop unless all required
inputs are ready. -/
def nodeTaskPreprocessing (inputs_ready : Bool) (s : NodeSt) : NodeSt :=
  let s1 := { s with schedule_state := .Running }
  if s1.node_has_finished then { s1 with phase := .preDone false }
  else
    let outs := s1.outputs.map fun o =>
      { o with output_usage_for_execution := o.output_usage }
    let execution_is_necessary := outs.any fun o =>
      !o.has_been_computed && decide (o.output_usage = .Required)
    let s2 := { s1 with outputs := outs }
    if !execution_is_necessary then { s2 with phase := .preDone false }
    else
      let s3 := { s2 with non_lazy_inputs_handled := true }
      if inputs_ready then { s3 with phase := .preDone true }
      else { s3 with phase := .preDone false }

/-- Mirrors `node_task_postprocessing`: compute `finish_node_if_possible`
(every output computed or `Unused`, and every force-compute input was ready),
then reset the schedule state, rescheduling when a reschedule was requested
while the node has not finished. -/
def nodeTaskPostprocessing (force_inputs_ok : Bool) (s : NodeSt) : NodeSt :=
  let finished :=
    if s.node_has_finished then true
    else
      (s.outputs.all fun o => o.has_been_computed || decide (o.output_usage = .Unused)) &&
        force_inputs_ok
  { s with
    node_has_finished := finished
    schedule_state := (node_task_postprocessing_sched s.schedule_state finished [] 0).1
    phase := .idle }

/-- One atomic protocol step on a non-lazy node's state; `none` where the
source asserts the event impossible (e.g. picking up a node that is not
`Scheduled`). -/
def stepE (s : NodeSt) (e : Ev) : Option NodeSt :=
  match e with
  | .schedule => some { s with schedule_state := (schedule_node s.schedule_state [] 0).1 }
  | .pickup inputs_ready =>
      if s.schedule_state = .Scheduled then some (nodeTaskPreprocessing inputs_ready s)
      else none
  | .execStep extra =>
      if s.phase = .preDone true then
        some { s with
          has_been_executed := true
          outputs := execOutputsGo extra 0 s.outputs
          phase := .execDone true }
      else none
  | .skipStep =>
      if s.phase = .preDone false then some { s with phase := .execDone false }
      else none
  | .postStep force_inputs_ok =>
      match s.phase with
      | .execDone _ => some (nodeTaskPostprocessing force_inputs_ok s)
      | _ => none
  | .notifyRequired i =>
      match s.outputs[i]? with
      | none => none
      | some o =>
          if o.output_usage = .Required then some s
          else
            some { s with
              outputs := s.outputs.set i { o with output_usage := .Required }
              schedule_state := (schedule_node s.schedule_state [] 0).1 }
  | .notifyUnused i =>
      match s.outputs[i]? with
      | none => none
      | some o =>
          let o1 := { o with potential_users := o.potential_users - 1 }
          if o1.potential_users = 0 then
            if o1.output_usage ≠ .Required then
              some { s with
                outputs := s.outputs.set i { o1 with output_usage := .Unused }
                schedule_state := (schedule_node s.schedule_state [] 0).1 }
            else some { s with outputs := s.outputs.set i o1 }
          else some { s with outputs := s.outputs.set i o1 }

/-- Environment assumption under which traces are considered: an
output-required notification never targets an output whose usage is already
`Unused`. In the full evaluator this holds because a producer output is
`Unused` only once every reachable consumer input is `Unused`, and
`set_input_required` (the only source of required notifications) is never
applied to an `Unused` input. -/
def GoodEv (s : NodeSt) (e : Ev) : Prop :=
  match e with
  | .notifyRequired i =>
      ∀ (o : OutputState), s.outputs[i]? = some o → o.output_usage ≠ ValueUsage.Unused
  | _ => True

/-- States a freshly initialized node can be in once `initialize_node_state`
and `schedule_initial_nodes` have run: nothing computed, nothing executed,
default snapshot, no task in flight; usages and potential-user counts are
arbitrary (covering the force-compute promotions done before the task pool
starts). -/
def InitSt (s : NodeSt) : Prop :=
  s.schedule_state = .NotScheduled ∧
  s.has_been_executed = false ∧
  s.node_has_finished = false ∧
  s.non_lazy_inputs_handled = false ∧
  s.phase = .idle ∧
  ∀ (i : Nat) (o : OutputState), s.outputs[i]? = some o →
    o.has_been_computed = false ∧ o.output_usage_for_execution = ValueUsage.Maybe

/-- Reachability along steps satisfying the environment assumption. -/
inductive ReachableG : NodeSt → Prop where
  | init (s : NodeSt) : InitSt s → ReachableG s
  | step (s : NodeSt) (e : Ev) (s' : NodeSt) :
      ReachableG s → GoodEv s e → stepE s e = some s' → ReachableG s'

/-- The protocol invariant: (1) once a non-lazy node has executed, every
output whose usage is not `Unused` has been computed; (2) a pending
execution decision implies the node has not executed yet; (3) an output
whose execution snapshot is `Unused` has usage `Unused` as well. -/
def Inv (s : NodeSt) : Prop :=
  (s.has_been_executed = true →
    ∀ (i : Nat) (o : OutputState), s.outputs[i]? = some o →
      o.output_usage ≠ ValueUsage.Unused → o.has_been_computed = true) ∧
  (s.phase = TaskPhase.preDone true → s.has_been_executed = false) ∧
  (∀ (i : Nat) (o : OutputState), s.outputs[i]? = some o →
    o.output_usage_for_execution = ValueUsage.Unused → o.output_usage = ValueUsage.Unused)

/-- Index access through the execution update of the outputs. -/
theorem execOutputsGo_getElem (extra : Nat → Bool) (i j : Nat) (l : List OutputState) :
    (execOutputsGo extra i l)[j]? = (l[j]?).map fun o =>
      { o with has_been_computed :=
          o.has_been_computed || decide (o.output_usage_for_execution ≠ .Unused) || extra (i + j) } := by
  induction l generalizing i j with
  | nil => simp [execOutputsGo]
  | cons o rest ih =>
      cases j with
      | zero => simp [execOutputsGo]
      | succ j =>
          simp only [execOutputsGo, List.getElem?_cons_succ, ih (i + 1) j]
          have : i + 1 + j = i + (j + 1) := by omega
          rw [this]

/-- The snapshot taken by `prepare_node_outputs_for_execution`. -/
def snapOutput (o : OutputState) : OutputState :=
  { o with output_usage_for_execution := o.output_usage }

/-- The invariant holds in every initial state. -/
theorem inv_init (s : NodeSt) (h : InitSt s) : Inv s := by
  obtain ⟨-, hexec, -, -, hphase, houts⟩ := h
  refine ⟨?_, ?_, ?_⟩
  · intro hx
    rw [hexec] at hx
    exact absurd hx (by simp)
  · intro hp
    exact hexec
  · intro i o hget hunused
    have := (houts i o hget).2
    rw [this] at hunused
    exact absurd hunused (by simp)

/-- The invariant is preserved by `node_task_preprocessing`. -/
theorem inv_preprocessing (s : NodeSt) (ir : Bool) (hI : Inv s) :
    Inv (nodeTaskPreprocessing ir s) := by
  obtain ⟨h1, h2, h3⟩ := hI
  unfold nodeTaskPreprocessing
  by_cases hfin : s.node_has_finished
  · simp only [hfin, if_true]
    exact ⟨h1, by intro hp; exact absurd hp (by simp), h3⟩
  · simp only [hfin]
    have hsnap : ∀ (i : Nat) (o' : OutputState),
        (s.outputs.map snapOutput)[i]? = some o' →
        ∃ o : OutputState, s.outputs[i]? = some o ∧ o' = snapOutput o := by
      intro i o' hget
      rw [List.getElem?_map snapOutput s.outputs i] at hget
      cases hg : s.outputs[i]? with
      | none => rw [hg] at hget; exact absurd hget (by simp)
      | some o =>
          rw [hg] at hget
          exact ⟨o, rfl, (Option.some.inj hget).symm⟩
    have inv1' : ({ s with schedule_state := NodeScheduleState.Running } : NodeSt).has_been_executed = true →
        ∀ (i : Nat) (o : OutputState), (s.outputs.map snapOutput)[i]? = some o →
          o.output_usage ≠ ValueUsage.Unused → o.has_been_computed = true := by
      intro hx i o' hget husage
      obtain ⟨o, hg, rfl⟩ := hsnap i o' hget
      exact h1 hx i o hg husage
    have inv3' : ∀ (i : Nat) (o : OutputState), (s.outputs.map snapOutput)[i]? = some o →
        o.output_usage_for_execution = ValueUsage.Unused → o.output_usage = ValueUsage.Unused := by
      intro i o' hget husage
      obtain ⟨o, hg, rfl⟩ := hsnap i o' hget
      exact husage
    by_cases hnec : (s.outputs.map fun o => { o with output_usage_for_execution := o.output_usage }).any
        (fun o => !o.has_been_computed && decide (o.output_usage = ValueUsage.Required)) = true
    · simp only [hnec, Bool.not_true, if_false, Bool.false_eq_true, ite_false]
      cases ir with
      | false =>
          exact ⟨inv1', by intro hp; exact absurd hp (by simp), inv3'⟩
      | true =>
          refine ⟨inv1', ?_, inv3'⟩
          intro _
          show s.has_been_executed = false
          by_contra hx
          have hx' : s.has_been_executed = true := by
            cases hb : s.has_been_executed
            · exact absurd hb hx
            · rfl
          obtain ⟨o', hmem, hp⟩ := List.any_eq_true.mp hnec
          obtain ⟨i, hget⟩ := List.mem_iff_getElem?.mp hmem
          obtain ⟨o, hg, rfl⟩ := hsnap i o' hget
          simp only [Bool.and_eq_true, Bool.not_eq_true', decide_eq_true_eq] at hp
          have hpc : o.has_been_computed = false := hp.1
          have hpr : o.output_usage = ValueUsage.Required := hp.2
          have hcomp := h1 hx' i o hg (by rw [hpr]; simp)
          rw [hcomp] at hpc
          exact absurd hpc (by simp)
    · simp only [hnec]
      simp only [Bool.not_eq_true] at hnec
      simp only [hnec, Bool.not_false, if_true]
      exact ⟨inv1', by intro hp; exact absurd hp (by simp), inv3'⟩

/-- The invariant is preserved by every step taken under the environment
assumption. -/
theorem inv_preserved (s : NodeSt) (e : Ev) (s' : NodeSt)
    (hI : Inv s) (hg : GoodEv s e) (hs : stepE s e = some s') : Inv s' := by
  obtain ⟨h1, h2, h3⟩ := hI
  cases e with
  | schedule =>
      simp only [stepE, Option.some.injEq] at hs
      rw [← hs]
      exact ⟨h1, h2, h3⟩
  | pickup ir =>
      simp only [stepE] at hs
      by_cases hsch : s.schedule_state = NodeScheduleState.Scheduled
      · rw [if_pos hsch] at hs
        rw [← Option.some.inj hs]
        exact inv_preprocessing s ir ⟨h1, h2, h3⟩
      · rw [if_neg hsch] at hs
        exact absurd hs (by simp)
  | execStep extra =>
      simp only [stepE] at hs
      by_cases hp : s.phase = TaskPhase.preDone true
      · rw [if_pos hp, Option.some.injEq] at hs
        rw [← hs]
        refine ⟨?_, ?_, ?_⟩
        · intro _ i o' hget husage
          rw [execOutputsGo_getElem extra 0 i s.outputs] at hget
          cases hg' : s.outputs[i]? with
          | none => rw [hg'] at hget; exact absurd hget (by simp)
          | some o =>
              rw [hg'] at hget
              replace hget := (Option.some.inj hget).symm
              have husage0 : o.output_usage ≠ ValueUsage.Unused := by
                intro hu
                apply husage
                rw [hget]
                exact hu
              have hsnapne : o.output_usage_for_execution ≠ ValueUsage.Unused := by
                intro hu
                exact husage0 (h3 i o hg' hu)
              rw [hget]
              simp [hsnapne]
        · intro hphase
          exact absurd hphase (by simp)
        · intro i o' hget husage
          rw [execOutputsGo_getElem extra 0 i s.outputs] at hget
          cases hg' : s.outputs[i]? with
          | none => rw [hg'] at hget; exact absurd hget (by simp)
          | some o =>
              rw [hg'] at hget
              replace hget := (Option.some.inj hget).symm
              rw [hget] at husage ⊢
              exact h3 i o hg' husage
      · rw [if_neg hp] at hs
        exact absurd hs (by simp)
  | skipStep =>
      simp only [stepE] at hs
      by_cases hp : s.phase = TaskPhase.preDone false
      · rw [if_pos hp, Option.some.injEq] at hs
        rw [← hs]
        exact ⟨h1, by intro hphase; exact absurd hphase (by simp), h3⟩
      · rw [if_neg hp] at hs
        exact absurd hs (by simp)
  | postStep fok =>
      simp only [stepE] at hs
      cases hp : s.phase with
      | idle => rw [hp] at hs; exact absurd hs (by simp)
      | preDone b => rw [hp] at hs; exact absurd hs (by simp)
      | execDone b =>
          rw [hp] at hs
          rw [← Option.some.inj hs]
          unfold nodeTaskPostprocessing
          exact ⟨h1, by intro hphase; exact absurd hphase (by simp), h3⟩
  | notifyRequired i =>
      simp only [stepE] at hs
      simp only [GoodEv] at hg
      split at hs
      · exact absurd hs (by simp)
      · rename_i o hget
        have husage := hg o hget
        split at hs
        · rw [← Option.some.inj hs]
          exact ⟨h1, h2, h3⟩
        · rw [← Option.some.inj hs]
          refine ⟨?_, h2, ?_⟩
          · intro hx j o' hget' husage'
            rw [List.getElem?_set] at hget'
            by_cases hij : i = j
            · rw [if_pos hij] at hget'
              by_cases hlen : i < s.outputs.length
              · rw [if_pos hlen, Option.some.injEq] at hget'
                rw [← hget']
                exact h1 hx i o hget husage
              · rw [if_neg hlen] at hget'
                exact absurd hget' (by simp)
            · rw [if_neg hij] at hget'
              exact h1 hx j o' hget' husage'
          · intro j o' hget' husage'
            rw [List.getElem?_set] at hget'
            by_cases hij : i = j
            · rw [if_pos hij] at hget'
              by_cases hlen : i < s.outputs.length
              · rw [if_pos hlen, Option.some.injEq] at hget'
                rw [← hget'] at husage'
                exact absurd (h3 i o hget husage') husage
              · rw [if_neg hlen] at hget'
                exact absurd hget' (by simp)
            · rw [if_neg hij] at hget'
              exact h3 j o' hget' husage'
  | notifyUnused i =>
      simp only [stepE] at hs
      split at hs
      · exact absurd hs (by simp)
      · rename_i o hget
        have hset : ∀ (onew : OutputState),
            onew.has_been_computed = o.has_been_computed →
            onew.output_usage_for_execution = o.output_usage_for_execution →
            (onew.output_usage = o.output_usage ∨ onew.output_usage = ValueUsage.Unused) →
            (s.has_been_executed = true →
              ∀ (j : Nat) (o' : OutputState), (s.outputs.set i onew)[j]? = some o' →
                o'.output_usage ≠ ValueUsage.Unused → o'.has_been_computed = true) ∧
            (∀ (j : Nat) (o' : OutputState), (s.outputs.set i onew)[j]? = some o' →
              o'.output_usage_for_execution = ValueUsage.Unused →
                o'.output_usage = ValueUsage.Unused) := by
          intro onew hcomp hsnap husage
          constructor
          · intro hx j o' hget' husage'
            rw [List.getElem?_set] at hget'
            by_cases hij : i = j
            · rw [if_pos hij] at hget'
              by_cases hlen : i < s.outputs.length
              · rw [if_pos hlen, Option.some.injEq] at hget'
                rw [← hget'] at husage' ⊢
                rw [hcomp]
                cases husage with
                | inl heq =>
                    refine h1 hx i o hget ?_
                    rw [← heq]
                    exact husage'
                | inr heq => exact absurd heq husage'
              · rw [if_neg hlen] at hget'
                exact absurd hget' (by simp)
            · rw [if_neg hij] at hget'
              exact h1 hx j o' hget' husage'
          · intro j o' hget' husage'
            rw [List.getElem?_set] at hget'
            by_cases hij : i = j
            · rw [if_pos hij] at hget'
              by_cases hlen : i < s.outputs.length
              · rw [if_pos hlen, Option.some.injEq] at hget'
                rw [← hget'] at husage' ⊢
                rw [hsnap] at husage'
                cases husage with
                | inl heq => rw [heq]; exact h3 i o hget husage'
                | inr heq => exact heq
              · rw [if_neg hlen] at hget'
                exact absurd hget' (by simp)
            · rw [if_neg hij] at hget'
              exact h3 j o' hget' husage'
        split at hs
        · split at hs
          · rw [← Option.some.inj hs]
            refine ⟨?_, h2, ?_⟩
            · exact (hset { o with potential_users := o.potential_users - 1, output_usage := ValueUsage.Unused } rfl rfl (Or.inr rfl)).1
            · exact (hset { o with potential_users := o.potential_users - 1, output_usage := ValueUsage.Unused } rfl rfl (Or.inr rfl)).2
          · rw [← Option.some.inj hs]
            refine ⟨?_, h2, ?_⟩
            · exact (hset { o with potential_users := o.potential_users - 1 } rfl rfl (Or.inl rfl)).1
            · exact (hset { o with potential_users := o.potential_users - 1 } rfl rfl (Or.inl rfl)).2
        · rw [← Option.some.inj hs]
          refine ⟨?_, h2, ?_⟩
          · exact (hset { o with potential_users := o.potential_users - 1 } rfl rfl (Or.inl rfl)).1
          · exact (hset { o with potential_users := o.potential_users - 1 } rfl rfl (Or.inl rfl)).2

/-- Loading an unlinked input value never changes the usage field. -/
theorem load_unlinked_usage (sv : DSocket → Val) (st : InputState) (origin : DSocket)
    (st' : InputState) (h : load_unlinked_input_value sv st origin = some st') :
    st'.usage = st.usage := by
  obtain ⟨val, usage, ready, fc⟩ := st
  cases val with
  | multi m =>
      simp only [load_unlinked_input_value] at h
      cases ha : m.add_value origin (sv origin) with
      | none => rw [ha] at h; exact absurd h (by simp)
      | some m1 =>
          rw [ha] at h
          rw [← Option.some.inj h]
  | single v =>
      simp only [load_unlinked_input_value, Option.some.injEq] at h
      rw [← h]

/-- The origin loop of `set_input_required` never changes the usage field. -/
theorem requireFromOrigins_usage (sv : DSocket → Val) :
    ∀ (origins : List DSocket) (st : InputState) (m : Int) (d l : List DSocket) (req : Bool)
      (r : InputState × Int × List DSocket × List DSocket × Bool),
      requireFromOrigins sv origins st m d l req = some r → r.1.usage = st.usage := by
  intro origins
  induction origins with
  | nil =>
      intro st m d l req r h
      simp only [requireFromOrigins, Option.some.injEq] at h
      rw [← h]
  | cons o rest ih =>
      intro st m d l req r h
      simp only [requireFromOrigins] at h
      by_cases ho : o.input = true
      · rw [if_pos ho] at h
        cases hl : load_unlinked_input_value sv st o with
        | none => rw [hl] at h; exact absurd h (by simp)
        | some st1 =>
            rw [hl] at h
            rw [ih st1 (m - 1) d (l ++ [o]) req r h]
            exact load_unlinked_usage sv st o st1 hl
      · rw [if_neg ho] at h
        exact ih st m (d ++ [o]) l true r h

/-- The origin loop of `set_input_required`: the missing counter decreases by
one per input-socket origin, input-socket origins are loaded in order,
output-socket origins are recorded as delayed required-output notifications,
and the requested flag becomes true exactly when some origin is an output
socket. -/
theorem requireFromOrigins_spec (sv : DSocket → Val) :
    ∀ (origins : List DSocket) (st : InputState) (m : Int) (d l : List DSocket) (req : Bool)
      (r : InputState × Int × List DSocket × List DSocket × Bool),
      requireFromOrigins sv origins st m d l req = some r →
      r.2.1 = m - (origins.filter (fun o => o.input)).length ∧
      r.2.2.1 = d ++ origins.filter (fun o => !o.input) ∧
      r.2.2.2.1 = l ++ origins.filter (fun o => o.input) ∧
      r.2.2.2.2 = (req || origins.any fun o => !o.input) := by
  intro origins
  induction origins with
  | nil =>
      intro st m d l req r h
      simp only [requireFromOrigins, Option.some.injEq] at h
      rw [← h]
      simp
  | cons o rest ih =>
      intro st m d l req r h
      simp only [requireFromOrigins] at h
      by_cases ho : o.input = true
      · rw [if_pos ho] at h
        cases hl : load_unlinked_input_value sv st o with
        | none => rw [hl] at h; exact absurd h (by simp)
        | some st1 =>
            rw [hl] at h
            obtain ⟨hm, hd, hl2, hr⟩ := ih st1 (m - 1) d (l ++ [o]) req r h
            refine ⟨?_, ?_, ?_, ?_⟩
            · rw [hm]
              simp only [List.filter_cons, ho, if_pos, List.length_cons]
              push_cast
              ring
            · rw [hd]
              simp [List.filter_cons, ho]
            · rw [hl2]
              simp [List.filter_cons, ho]
            · rw [hr]
              simp [List.any_cons, ho]
      · rw [if_neg ho] at h
        have ho' : o.input = false := by
          cases hb : o.input
          · rfl
          · exact absurd hb ho
        obtain ⟨hm, hd, hl2, hr⟩ := ih st m (d ++ [o]) l true r h
        refine ⟨?_, ?_, ?_, ?_⟩
        · rw [hm]
          simp [List.filter_cons, ho']
        · rw [hd]
          simp [List.filter_cons, ho']
        · rw [hl2]
          simp [List.filter_cons, ho']
        · rw [hr]
          simp [List.any_cons, ho']

/-- Every reachable state satisfies the protocol invariant. -/
theorem reachable_inv (s : NodeSt) (h : ReachableG s) : Inv s := by
  induction h with
  | init s hinit => exact inv_init s hinit
  | step s e s' _ hg hs ih => exact inv_preserved s e s' ih hg hs

/-- C2: for a node that does not declare laziness support, `execute_node` is
never entered a second time: whenever the execution step fires from a
reachable state of the protocol (under the environment assumption that
output-required notifications never target an `Unused` output), the
`has_been_executed` flag is still false and the step sets it to true; since
no step ever resets the flag, it transitions from false to true at most once,
and the `BLI_assert_unreachable` branch guarding re-execution of non-lazy
nodes is never reached. -/
theorem claim_C2_no_double_execution (s s' : NodeSt) (extra : Nat → Bool)
    (hreach : ReachableG s) (hstep : stepE s (.execStep extra) = some s') :
    s.has_been_executed = false ∧ s'.has_been_executed = true := by
  obtain ⟨-, h2, -⟩ := reachable_inv s hreach
  simp only [stepE] at hstep
  by_cases hp : s.phase = TaskPhase.preDone true
  · refine ⟨h2 hp, ?_⟩
    rw [if_pos hp] at hstep
    rw [← Option.some.inj hstep]
  · rw [if_neg hp] at hstep
    exact absurd hstep (by simp)

/-- C2 witness: a concrete three-step trace (schedule, pickup, execute) of a
node with one required output, on which the theorem applies. -/
theorem claim_C2_no_double_execution_witness :
    (⟨.Running, false, false, true, [⟨false, .Required, .Required, 1⟩], .preDone true⟩ :
        NodeSt).has_been_executed = false ∧
    (⟨.Running, true, false, true, [⟨true, .Required, .Required, 1⟩], .execDone true⟩ :
        NodeSt).has_been_executed = true := by
  have h0 : InitSt ⟨.NotScheduled, false, false, false, [⟨false, .Required, .Maybe, 1⟩], .idle⟩ := by
    refine ⟨rfl, rfl, rfl, rfl, rfl, ?_⟩
    intro i o h
    match i, h with
    | 0, h =>
        cases Option.some.inj h
        exact ⟨rfl, rfl⟩
    | (n + 1), h => simp at h
  have h1 : ReachableG
      ⟨.Scheduled, false, false, false, [⟨false, .Required, .Maybe, 1⟩], .idle⟩ :=
    ReachableG.step _ .schedule _ (ReachableG.init _ h0) trivial rfl
  have h2 : ReachableG
      ⟨.Running, false, false, true, [⟨false, .Required, .Required, 1⟩], .preDone true⟩ :=
    ReachableG.step _ (.pickup true) _ h1 trivial rfl
  exact claim_C2_no_double_execution _ _ (fun _ => false) h2 rfl

/-- C3: `schedule_node` implements exactly the claimed transitions of the
schedule state (from `NotScheduled` it moves to `Scheduled` and records the
node for enqueueing after unlock; from `Scheduled` it is a no-op; from
`Running` it moves to `RunningAndRescheduled` without enqueueing; from
`RunningAndRescheduled` it is a no-op), and on task completion
`node_task_postprocessing` schedules the node again exactly when the state is
`RunningAndRescheduled` and the node has not finished, and otherwise leaves
it `NotScheduled`. -/
theorem claim_C3_schedule_transitions :
    (∀ (d : List DNode) (n : DNode),
      schedule_node .NotScheduled d n = (.Scheduled, d ++ [n]) ∧
      schedule_node .Scheduled d n = (.Scheduled, d) ∧
      schedule_node .Running d n = (.RunningAndRescheduled, d) ∧
      schedule_node .RunningAndRescheduled d n = (.RunningAndRescheduled, d)) ∧
    (∀ (st : NodeScheduleState) (finished : Bool) (d : List DNode) (n : DNode),
      node_task_postprocessing_sched st finished d n =
        if st = .RunningAndRescheduled ∧ finished = false then (.Scheduled, d ++ [n])
        else (.NotScheduled, d)) := by
  constructor
  · intro d n
    exact ⟨rfl, rfl, rfl, rfl⟩
  · intro st finished d n
    cases st <;> cases finished <;>
      simp [node_task_postprocessing_sched, schedule_node]

/-- C10: the params facade reports an already computed output as not required
in both the general and the lazy query, regardless of the execution
snapshot; for a not-yet-computed output, `output_is_required` reports that
the snapshot usage is not `Unused` and `lazy_output_is_required` that it is
`Required`. -/
theorem claim_C10_output_required_queries (o : OutputState) :
    (o.has_been_computed = true →
      output_is_required o = false ∧ lazy_output_is_required o = false) ∧
    (o.has_been_computed = false →
      ((output_is_required o = true ↔ o.output_usage_for_execution ≠ .Unused) ∧
       (lazy_output_is_required o = true ↔ o.output_usage_for_execution = .Required))) := by
  constructor
  · intro hc
    simp [output_is_required, lazy_output_is_required, hc]
  · intro hc
    simp [output_is_required, lazy_output_is_required, hc]

/-- C10 witness: a computed output with a `Required` snapshot is reported as
not required by both queries. -/
theorem claim_C10_output_required_queries_witness :
    output_is_required ⟨true, .Required, .Required, 1⟩ = false ∧
    lazy_output_is_required ⟨true, .Required, .Required, 1⟩ = false :=
  (claim_C10_output_required_queries ⟨true, .Required, .Required, 1⟩).1 rfl

/-- The usage update performed by `destruct_input_value` is trivial: only the
stored values change. -/
theorem destruct_input_value_usage (st : InputState) :
    (destruct_input_value st).usage = st.usage := by
  obtain ⟨val, u, rd, fc⟩ := st
  cases val <;> rfl

/-- Record updates of the usage field do not change the missing-value count. -/
theorem inputMissingValues_usage_update (st : InputState) (u : ValueUsage) :
    inputMissingValues { st with usage := u } = inputMissingValues st := by
  obtain ⟨val, u0, rd, fc⟩ := st
  cases val <;> rfl

/-- Usage transitions of `set_input_required`: either the usage is untouched,
or it moves from `Maybe` to `Required`. -/
theorem set_input_required_usage (sv : DSocket → Val) (sock : DSocket)
    (origins : List DSocket) (st : InputState) (m0 : Int) (r : SetInputRequiredResult)
    (h : set_input_required sv sock origins st m0 = some r) :
    r.state.usage = st.usage ∨ (st.usage = .Maybe ∧ r.state.usage = .Required) := by
  simp only [set_input_required] at h
  split at h
  · exact absurd h (by simp)
  · rename_i hu
    split at h
    · left
      rw [← Option.some.inj h]
    · rename_i hready
      split at h
      · left
        rw [← Option.some.inj h]
      · rename_i hreq
        have hmaybe : st.usage = ValueUsage.Maybe := by
          cases hsu : st.usage
          · exact absurd hsu hreq
          · rfl
          · exact absurd hsu hu
        refine Or.inr ⟨hmaybe, ?_⟩
        split at h
        · rw [← Option.some.inj h]
        · split at h
          · cases hl : load_unlinked_input_value sv
                { st with usage := ValueUsage.Required } sock with
            | none => rw [hl] at h; exact absurd h (by simp)
            | some st2 =>
                rw [hl] at h
                rw [← Option.some.inj h]
                show st2.usage = ValueUsage.Required
                exact load_unlinked_usage sv _ sock st2 hl
          · cases hro : requireFromOrigins sv origins
                { st with usage := ValueUsage.Required }
                (m0 + inputMissingValues { st with usage := ValueUsage.Required }) [] [] false with
            | none => rw [hro] at h; exact absurd h (by simp)
            | some tup =>
                rw [hro] at h
                rw [← Option.some.inj h]
                show tup.1.usage = ValueUsage.Required
                exact requireFromOrigins_usage sv origins
                  { st with usage := ValueUsage.Required } _ [] [] false tup hro

/-- Usage transitions of `set_input_unused`: either the usage is untouched,
or it moves from `Maybe` to `Unused`. -/
theorem set_input_unused_usage (origins : List DSocket) (st : InputState)
    (r : InputState × List DSocket) (h : set_input_unused origins st = some r) :
    r.1.usage = st.usage ∨ (st.usage = .Maybe ∧ r.1.usage = .Unused) := by
  simp only [set_input_unused] at h
  split at h
  · exact absurd h (by simp)
  · rename_i hreq
    split at h
    · left
      rw [← Option.some.inj h]
    · rename_i hu
      have hmaybe : st.usage = ValueUsage.Maybe := by
        cases hsu : st.usage
        · exact absurd hsu hreq
        · rfl
        · exact absurd hsu hu
      refine Or.inr ⟨hmaybe, ?_⟩
      have husage :
          (destruct_input_value { st with usage := ValueUsage.Unused }).usage =
            ValueUsage.Unused :=
        destruct_input_value_usage { st with usage := ValueUsage.Unused }
      split at h
      · rw [← Option.some.inj h]
        exact husage
      · rw [← Option.some.inj h]
        exact husage

/-- C1: the usage field never transitions directly between `Required` and
`Unused`: `set_input_required` is never applied to an `Unused` input (the
asserted precondition, modelled by yielding a result at all) and never
produces an `Unused` usage; `set_input_unused` is never applied to a
`Required` input and never produces a `Required` usage; and in both
operations the usage changes only when it was `Maybe`. -/
theorem claim_C1_usage_monotone :
    (∀ (sv : DSocket → Val) (sock : DSocket) (origins : List DSocket) (st : InputState)
        (m0 : Int) (r : SetInputRequiredResult),
        set_input_required sv sock origins st m0 = some r →
        st.usage ≠ .Unused ∧ r.state.usage ≠ .Unused ∧
          (r.state.usage ≠ st.usage → st.usage = .Maybe ∧ r.state.usage = .Required)) ∧
    (∀ (origins : List DSocket) (st : InputState) (r : InputState × List DSocket),
        set_input_unused origins st = some r →
        st.usage ≠ .Required ∧ r.1.usage ≠ .Required ∧
          (r.1.usage ≠ st.usage → st.usage = .Maybe ∧ r.1.usage = .Unused)) := by
  constructor
  · intro sv sock origins st m0 r h
    have hu : st.usage ≠ ValueUsage.Unused := by
      intro hu
      rw [set_input_required, if_pos hu] at h
      exact absurd h (by simp)
    refine ⟨hu, ?_, ?_⟩
    · cases set_input_required_usage sv sock origins st m0 r h with
      | inl heq => rw [heq]; exact hu
      | inr hch => rw [hch.2]; simp
    · intro hne
      cases set_input_required_usage sv sock origins st m0 r h with
      | inl heq => exact absurd heq hne
      | inr hch => exact hch
  · intro origins st r h
    have hreq : st.usage ≠ ValueUsage.Required := by
      intro hreq
      rw [set_input_unused, if_pos hreq] at h
      exact absurd h (by simp)
    refine ⟨hreq, ?_, ?_⟩
    · cases set_input_unused_usage origins st r h with
      | inl heq => rw [heq]; exact hreq
      | inr hch => rw [hch.2]; simp
    · intro hne
      cases set_input_unused_usage origins st r h with
      | inl heq => exact absurd heq hne
      | inr hch => exact hch

/-- C1 witness: requiring a `Maybe` input linked to an output socket, and
marking a provided `Maybe` input unused, at concrete inputs. -/
theorem claim_C1_usage_monotone_witness :
    ((⟨.single none, .Maybe, false, false⟩ : InputState).usage ≠ .Unused ∧
      (⟨⟨.single none, .Required, false, false⟩, 1, [⟨2, false⟩], [], true⟩ :
          SetInputRequiredResult).state.usage ≠ .Unused ∧
      ((⟨⟨.single none, .Required, false, false⟩, 1, [⟨2, false⟩], [], true⟩ :
          SetInputRequiredResult).state.usage ≠
            (⟨.single none, .Maybe, false, false⟩ : InputState).usage →
        (⟨.single none, .Maybe, false, false⟩ : InputState).usage = .Maybe ∧
        (⟨⟨.single none, .Required, false, false⟩, 1, [⟨2, false⟩], [], true⟩ :
          SetInputRequiredResult).state.usage = .Required)) ∧
    ((⟨.single (some 4), .Maybe, false, false⟩ : InputState).usage ≠ .Required ∧
      ((⟨.single none, .Unused, false, false⟩ : InputState),
          ([⟨2, false⟩] : List DSocket)).1.usage ≠ .Required ∧
      (((⟨.single none, .Unused, false, false⟩ : InputState),
          ([⟨2, false⟩] : List DSocket)).1.usage ≠
            (⟨.single (some 4), .Maybe, false, false⟩ : InputState).usage →
        (⟨.single (some 4), .Maybe, false, false⟩ : InputState).usage = .Maybe ∧
        ((⟨.single none, .Unused, false, false⟩ : InputState),
          ([⟨2, false⟩] : List DSocket)).1.usage = .Unused)) :=
  ⟨claim_C1_usage_monotone.1 (fun _ => 0) ⟨1, true⟩ [⟨2, false⟩]
      ⟨.single none, .Maybe, false, false⟩ 0
      ⟨⟨.single none, .Required, false, false⟩, 1, [⟨2, false⟩], [], true⟩ rfl,
    claim_C1_usage_monotone.2 [⟨2, false⟩] ⟨.single (some 4), .Maybe, false, false⟩
      (⟨.single none, .Unused, false, false⟩, [⟨2, false⟩]) rfl⟩

/-- C5 counterexample: a single input whose value is already provided (but
which is not yet ready for execution, usage `Maybe`) and whose only origin is
an output socket of another node. The code marks the input `Required` and
returns `false` without contacting the origin, while the claim demands a
`true` return whenever at least one origin is an output socket. -/
theorem claim_C5_counterexample :
    set_input_required (fun _ => 0) ⟨1, true⟩ [⟨5, false⟩]
        ⟨.single (some 7), .Maybe, false, false⟩ 0 =
      some ⟨⟨.single (some 7), .Required, false, false⟩, 0, [], [], false⟩ ∧
    (⟨5, false⟩ : DSocket).input = false := ⟨rfl, rfl⟩

/-- C5 (amended): `set_input_required` on a `Maybe` input that is not yet
ready for execution behaves as claimed provided at least one value slot is
still missing: it marks the input `Required`, adds the missing count to
`missing_required_inputs`, loads each input-socket origin immediately
(decrementing the counter), records a delayed output-required notification
for each output-socket origin, and returns true exactly when some origin is
an output socket. When no slot is missing it only marks the input `Required`
and returns false without contacting origins; with no origins at all it loads
the socket's own value and returns false; it returns false when the input was
already ready for execution and true when it was already `Required` but not
ready. -/
theorem claim_C5_set_input_required_amended :
    (∀ (sv : DSocket → Val) (sock : DSocket) (origins : List DSocket) (st : InputState)
        (m0 : Int) (r : SetInputRequiredResult),
      st.usage = .Maybe → st.was_ready_for_execution = false →
      inputMissingValues st ≠ 0 → origins ≠ [] →
      set_input_required sv sock origins st m0 = some r →
      r.state.usage = .Required ∧
      r.missing_required_inputs =
        m0 + inputMissingValues st - (origins.filter fun o => o.input).length ∧
      r.delayed_required_outputs = origins.filter (fun o => !o.input) ∧
      r.loaded_origins = origins.filter (fun o => o.input) ∧
      r.result = origins.any (fun o => !o.input)) ∧
    (∀ (sv : DSocket → Val) (sock : DSocket) (origins : List DSocket) (st : InputState)
        (m0 : Int),
      st.usage = .Maybe → st.was_ready_for_execution = false →
      inputMissingValues st = 0 →
      set_input_required sv sock origins st m0 =
        some ⟨{ st with usage := .Required }, m0, [], [], false⟩) ∧
    (∀ (sv : DSocket → Val) (sock : DSocket) (st : InputState) (m0 : Int)
        (r : SetInputRequiredResult),
      st.usage = .Maybe → st.was_ready_for_execution = false →
      inputMissingValues st ≠ 0 →
      set_input_required sv sock [] st m0 = some r →
      r.state.usage = .Required ∧
      r.missing_required_inputs = m0 + inputMissingValues st - 1 ∧
      r.delayed_required_outputs = [] ∧ r.loaded_origins = [sock] ∧ r.result = false) ∧
    (∀ (sv : DSocket → Val) (sock : DSocket) (origins : List DSocket) (st : InputState)
        (m0 : Int),
      st.usage ≠ .Unused → st.was_ready_for_execution = true →
      set_input_required sv sock origins st m0 = some ⟨st, m0, [], [], false⟩) ∧
    (∀ (sv : DSocket → Val) (sock : DSocket) (origins : List DSocket) (st : InputState)
        (m0 : Int),
      st.usage = .Required → st.was_ready_for_execution = false →
      set_input_required sv sock origins st m0 = some ⟨st, m0, [], [], true⟩) := by
  refine ⟨?_, ?_, ?_, ?_, ?_⟩
  · intro sv sock origins st m0 r husage hready hmiss horig h
    have c1 : ¬(st.usage = ValueUsage.Unused) := by rw [husage]; simp
    have c2 : ¬(st.was_ready_for_execution = true) := by rw [hready]; simp
    have c3 : ¬(st.usage = ValueUsage.Required) := by rw [husage]; simp
    have hm' : ¬(inputMissingValues { st with usage := ValueUsage.Required } = 0) := by
      rw [inputMissingValues_usage_update]
      exact hmiss
    have hoe : ¬(origins.isEmpty = true) := by
      cases origins with
      | nil => exact absurd rfl horig
      | cons a t => simp
    simp only [set_input_required] at h
    rw [if_neg c1, if_neg c2, if_neg c3, if_neg hm', if_neg hoe] at h
    cases hro : requireFromOrigins sv origins { st with usage := ValueUsage.Required }
        (m0 + inputMissingValues { st with usage := ValueUsage.Required }) [] [] false with
    | none => rw [hro] at h; exact absurd h (by simp)
    | some tup =>
        rw [hro] at h
        replace h := Option.some.inj h
        obtain ⟨hm, hd, hl2, hr2⟩ := requireFromOrigins_spec sv origins
          { st with usage := ValueUsage.Required } _ [] [] false tup hro
        have husg := requireFromOrigins_usage sv origins
          { st with usage := ValueUsage.Required } _ [] [] false tup hro
        rw [← h]
        refine ⟨?_, ?_, ?_, ?_, ?_⟩
        · show tup.1.usage = ValueUsage.Required
          exact husg
        · show tup.2.1 = m0 + inputMissingValues st - (origins.filter fun o => o.input).length
          rw [hm, inputMissingValues_usage_update]
        · show tup.2.2.1 = origins.filter (fun o => !o.input)
          rw [hd]
          exact List.nil_append _
        · show tup.2.2.2.1 = origins.filter (fun o => o.input)
          rw [hl2]
          exact List.nil_append _
        · show tup.2.2.2.2 = origins.any (fun o => !o.input)
          rw [hr2]
          exact Bool.false_or _
  · intro sv sock origins st m0 husage hready hm0
    have c1 : ¬(st.usage = ValueUsage.Unused) := by rw [husage]; simp
    have c2 : ¬(st.was_ready_for_execution = true) := by rw [hready]; simp
    have c3 : ¬(st.usage = ValueUsage.Required) := by rw [husage]; simp
    have hm' : inputMissingValues { st with usage := ValueUsage.Required } = 0 := by
      rw [inputMissingValues_usage_update]
      exact hm0
    simp only [set_input_required]
    rw [if_neg c1, if_neg c2, if_neg c3, if_pos hm']
  · intro sv sock st m0 r husage hready hmiss h
    have c1 : ¬(st.usage = ValueUsage.Unused) := by rw [husage]; simp
    have c2 : ¬(st.was_ready_for_execution = true) := by rw [hready]; simp
    have c3 : ¬(st.usage = ValueUsage.Required) := by rw [husage]; simp
    have hm' : ¬(inputMissingValues { st with usage := ValueUsage.Required } = 0) := by
      rw [inputMissingValues_usage_update]
      exact hmiss
    simp only [set_input_required] at h
    rw [if_neg c1, if_neg c2, if_neg c3, if_neg hm',
      if_pos (show (([] : List DSocket).isEmpty = true) from rfl)] at h
    cases hl : load_unlinked_input_value sv { st with usage := ValueUsage.Required } sock with
    | none => rw [hl] at h; exact absurd h (by simp)
    | some st2 =>
        rw [hl] at h
        replace h := Option.some.inj h
        rw [← h]
        refine ⟨?_, ?_, rfl, rfl, rfl⟩
        · show st2.usage = ValueUsage.Required
          exact load_unlinked_usage sv _ sock st2 hl
        · show m0 + (inputMissingValues { st with usage := ValueUsage.Required } : Int) - 1 =
            m0 + inputMissingValues st - 1
          rw [inputMissingValues_usage_update]
  · intro sv sock origins st m0 hu hready
    simp only [set_input_required]
    rw [if_neg hu, if_pos hready]
  · intro sv sock origins st m0 hreq hready
    have c1 : ¬(st.usage = ValueUsage.Unused) := by rw [hreq]; simp
    have c2 : ¬(st.was_ready_for_execution = true) := by rw [hready]; simp
    simp only [set_input_required]
    rw [if_neg c1, if_neg c2, if_pos hreq]

/-- C5 witness: a `Maybe` single input with no value yet, one input-socket
origin and one output-socket origin. -/
theorem claim_C5_set_input_required_amended_witness :
    (⟨⟨.single (some 30), .Required, false, false⟩, 2, [⟨4, false⟩], [⟨3, true⟩], true⟩ :
        SetInputRequiredResult).state.usage = .Required ∧
    (⟨⟨.single (some 30), .Required, false, false⟩, 2, [⟨4, false⟩], [⟨3, true⟩], true⟩ :
        SetInputRequiredResult).missing_required_inputs =
      2 + inputMissingValues ⟨.single none, .Maybe, false, false⟩ -
        (([⟨3, true⟩, ⟨4, false⟩] : List DSocket).filter fun o => o.input).length ∧
    (⟨⟨.single (some 30), .Required, false, false⟩, 2, [⟨4, false⟩], [⟨3, true⟩], true⟩ :
        SetInputRequiredResult).delayed_required_outputs =
      ([⟨3, true⟩, ⟨4, false⟩] : List DSocket).filter (fun o => !o.input) ∧
    (⟨⟨.single (some 30), .Required, false, false⟩, 2, [⟨4, false⟩], [⟨3, true⟩], true⟩ :
        SetInputRequiredResult).loaded_origins =
      ([⟨3, true⟩, ⟨4, false⟩] : List DSocket).filter (fun o => o.input) ∧
    (⟨⟨.single (some 30), .Required, false, false⟩, 2, [⟨4, false⟩], [⟨3, true⟩], true⟩ :
        SetInputRequiredResult).result =
      ([⟨3, true⟩, ⟨4, false⟩] : List DSocket).any (fun o => !o.input) :=
  claim_C5_set_input_required_amended.1 (fun s => s.id * 10) ⟨1, true⟩
    [⟨3, true⟩, ⟨4, false⟩] ⟨.single none, .Maybe, false, false⟩ 2
    ⟨⟨.single (some 30), .Required, false, false⟩, 2, [⟨4, false⟩], [⟨3, true⟩], true⟩
    rfl rfl (by decide) (by decide) rfl

/-- C4 counterexample: with three same-type targets the original buffer is
handed to the first target and the last target receives a copy, contradicting
the claim that the original goes to the last target. -/
theorem claim_C4_counterexample :
    (forward_to_sockets_with_same_type [⟨0, true⟩, ⟨1, true⟩, ⟨2, true⟩]).1 =
      [(⟨1, true⟩, .copy), (⟨2, true⟩, .copy), (⟨0, true⟩, .original)] ∧
    ((⟨2, true⟩, ForwardedValue.original) ∉
      (forward_to_sockets_with_same_type [⟨0, true⟩, ⟨1, true⟩, ⟨2, true⟩]).1) ∧
    ((⟨0, true⟩, ForwardedValue.original) ∈
      (forward_to_sockets_with_same_type [⟨0, true⟩, ⟨1, true⟩, ⟨2, true⟩]).1) :=
  ⟨rfl, by decide, by decide⟩

/-- C4 (amended): with zero targets the value is destructed; with one target
the original is handed to it without copying; with n > 1 targets exactly
n - 1 copies are made (for every target except the first, in order, before
the original is handed out) and the original buffer goes to the first
target. -/
theorem claim_C4_forwarding_amended :
    ((forward_to_sockets_with_same_type []).2 = true ∧
      (forward_to_sockets_with_same_type []).1 = []) ∧
    (∀ s : DSocket, forward_to_sockets_with_same_type [s] = ([(s, .original)], false)) ∧
    (∀ (first : DSocket) (rest : List DSocket), rest ≠ [] →
      forward_to_sockets_with_same_type (first :: rest) =
        ((rest.map fun s => (s, ForwardedValue.copy)) ++ [(first, ForwardedValue.original)],
          false) ∧
      ((forward_to_sockets_with_same_type (first :: rest)).1.filter
          (fun p => p.2 = ForwardedValue.copy)).length = rest.length) := by
  refine ⟨⟨rfl, rfl⟩, fun s => rfl, ?_⟩
  intro first rest hne
  have hmapfilter : ∀ (l : List DSocket),
      ((l.map fun s => (s, ForwardedValue.copy)) ++
          [(first, ForwardedValue.original)]).filter
        (fun p => p.2 = ForwardedValue.copy) = l.map fun s => (s, ForwardedValue.copy) := by
    intro l
    induction l with
    | nil => rfl
    | cons a t ih => simp only [List.map_cons, List.cons_append, List.filter_cons, ih]; rfl
  cases rest with
  | nil => exact absurd rfl hne
  | cons b t =>
      refine ⟨rfl, ?_⟩
      show ((((b :: t).map fun s => (s, ForwardedValue.copy)) ++
          [(first, ForwardedValue.original)]).filter
            (fun p => p.2 = ForwardedValue.copy)).length = (b :: t).length
      rw [hmapfilter (b :: t), List.length_map]

/-- C4 witness: three concrete targets. -/
theorem claim_C4_forwarding_amended_witness :
    forward_to_sockets_with_same_type [⟨5, true⟩, ⟨6, true⟩, ⟨7, true⟩] =
      ((([⟨6, true⟩, ⟨7, true⟩] : List DSocket).map fun s => (s, ForwardedValue.copy)) ++
        [(⟨5, true⟩, ForwardedValue.original)], false) ∧
    ((forward_to_sockets_with_same_type [⟨5, true⟩, ⟨6, true⟩, ⟨7, true⟩]).1.filter
        (fun p => p.2 = ForwardedValue.copy)).length =
      ([⟨6, true⟩, ⟨7, true⟩] : List DSocket).length :=
  claim_C4_forwarding_amended.2.2 ⟨5, true⟩ [⟨6, true⟩, ⟨7, true⟩] (by decide)

/-- The scan of `find_available_index` finds the first empty slot whose
declared origin matches, whenever some index holds such a slot. -/
theorem findAvailableIndexGo_found (origin : DSocket) :
    ∀ (os : List DSocket) (vs : List (Option Val)) (j : Nat),
      os[j]? = some origin → vs[j]? = some none →
      ∀ (i : Nat), ∃ k, k ≤ j ∧
        MultiInputValue.findAvailableIndexGo origin os vs i = some (i + k) ∧
        vs[k]? = some none ∧ os[k]? = some origin ∧
        ∀ t, t < k → ¬(vs[t]? = some none ∧ os[t]? = some origin) := by
  intro os
  induction os with
  | nil => intro vs j hj; simp at hj
  | cons o os ih =>
      intro vs j hj hv i
      cases vs with
      | nil => simp at hv
      | cons v vs =>
          by_cases hvn : v = none
          · by_cases hoo : o = origin
            · refine ⟨0, Nat.zero_le _, ?_, ?_, ?_, ?_⟩
              · simp [MultiInputValue.findAvailableIndexGo, hvn, hoo]
              · rw [List.getElem?_cons_zero, hvn]
              · rw [List.getElem?_cons_zero, hoo]
              · intro t ht
                exact absurd ht (by omega)
            · cases j with
              | zero =>
                  rw [List.getElem?_cons_zero] at hj
                  exact absurd (Option.some.inj hj) hoo
              | succ j =>
                  rw [List.getElem?_cons_succ] at hj hv
                  obtain ⟨k, hk, hgo, hvk, hok, hmin⟩ := ih vs j hj hv (i + 1)
                  refine ⟨k + 1, by omega, ?_, ?_, ?_, ?_⟩
                  · have harith : i + 1 + k = i + (k + 1) := by omega
                    simp only [MultiInputValue.findAvailableIndexGo]
                    rw [if_neg (not_not_intro hvn), if_pos hoo, hgo, harith]
                  · rw [List.getElem?_cons_succ]
                    exact hvk
                  · rw [List.getElem?_cons_succ]
                    exact hok
                  · intro t ht
                    cases t with
                    | zero =>
                        intro hpair
                        obtain ⟨hp1, hp2⟩ := hpair
                        rw [List.getElem?_cons_zero] at hp2
                        exact hoo (Option.some.inj hp2)
                    | succ t =>
                        intro hpair
                        obtain ⟨hp1, hp2⟩ := hpair
                        rw [List.getElem?_cons_succ] at hp1
                        rw [List.getElem?_cons_succ] at hp2
                        exact hmin t (by omega) ⟨hp1, hp2⟩
          · cases j with
            | zero =>
                rw [List.getElem?_cons_zero] at hv
                exact absurd (Option.some.inj hv) hvn
            | succ j =>
                rw [List.getElem?_cons_succ] at hj hv
                obtain ⟨k, hk, hgo, hvk, hok, hmin⟩ := ih vs j hj hv (i + 1)
                refine ⟨k + 1, by omega, ?_, ?_, ?_, ?_⟩
                · have harith : i + 1 + k = i + (k + 1) := by omega
                  simp only [MultiInputValue.findAvailableIndexGo]
                  rw [if_pos hvn, hgo, harith]
                · rw [List.getElem?_cons_succ]
                  exact hvk
                · rw [List.getElem?_cons_succ]
                  exact hok
                · intro t ht
                  cases t with
                  | zero =>
                      intro hpair
                      obtain ⟨hp1, hp2⟩ := hpair
                      rw [List.getElem?_cons_zero] at hp1
                      exact hvn (Option.some.inj hp1)
                  | succ t =>
                      intro hpair
                      obtain ⟨hp1, hp2⟩ := hpair
                      rw [List.getElem?_cons_succ] at hp1
                      rw [List.getElem?_cons_succ] at hp2
                      exact hmin t (by omega) ⟨hp1, hp2⟩

/-- C6: `add_value` stores the value into the slot at the first index, in
declared origin order, whose slot is still empty and whose declared origin
equals the given origin, and increments `provided_value_count` by one
(whenever such a slot exists; otherwise the source hits
`BLI_assert_unreachable`). -/
theorem claim_C6_add_value_first_matching (m : MultiInputValue) (origin : DSocket)
    (v : Val) (j : Nat) (hslot : m.values[j]? = some none)
    (horigin : m.origins[j]? = some origin) :
    ∃ i, m.find_available_index origin = some i ∧
      m.values[i]? = some none ∧ m.origins[i]? = some origin ∧
      (∀ t, t < i → ¬(m.values[t]? = some none ∧ m.origins[t]? = some origin)) ∧
      m.add_value origin v = some
        { m with values := m.values.set i (some v),
                 provided_value_count := m.provided_value_count + 1 } := by
  obtain ⟨k, -, hgo, hvk, hok, hmin⟩ :=
    findAvailableIndexGo_found origin m.origins m.values j horigin hslot 0
  rw [Nat.zero_add] at hgo
  refine ⟨k, ?_, hvk, hok, hmin, ?_⟩
  · show MultiInputValue.findAvailableIndexGo origin m.origins m.values 0 = some k
    exact hgo
  · show (MultiInputValue.findAvailableIndexGo origin m.origins m.values 0).map _ = _
    rw [hgo]
    rfl

/-- C6 witness: a multi-input with duplicate origins; the value for the
duplicated origin lands in the first empty matching slot (index 2, since
slot 0 is filled and slot 1 belongs to a different origin). -/
theorem claim_C6_add_value_first_matching_witness :
    ∃ i, (⟨[⟨1, false⟩, ⟨2, false⟩, ⟨1, false⟩], [some 5, none, none], 1⟩ :
        MultiInputValue).find_available_index ⟨1, false⟩ = some i ∧
      (⟨[⟨1, false⟩, ⟨2, false⟩, ⟨1, false⟩], [some 5, none, none], 1⟩ :
        MultiInputValue).values[i]? = some none ∧
      (⟨[⟨1, false⟩, ⟨2, false⟩, ⟨1, false⟩], [some 5, none, none], 1⟩ :
        MultiInputValue).origins[i]? = some ⟨1, false⟩ ∧
      (∀ t, t < i →
        ¬((⟨[⟨1, false⟩, ⟨2, false⟩, ⟨1, false⟩], [some 5, none, none], 1⟩ :
            MultiInputValue).values[t]? = some none ∧
          (⟨[⟨1, false⟩, ⟨2, false⟩, ⟨1, false⟩], [some 5, none, none], 1⟩ :
            MultiInputValue).origins[t]? = some ⟨1, false⟩)) ∧
      (⟨[⟨1, false⟩, ⟨2, false⟩, ⟨1, false⟩], [some 5, none, none], 1⟩ :
          MultiInputValue).add_value ⟨1, false⟩ 9 = some
        { (⟨[⟨1, false⟩, ⟨2, false⟩, ⟨1, false⟩], [some 5, none, none], 1⟩ :
            MultiInputValue) with
          values := (⟨[⟨1, false⟩, ⟨2, false⟩, ⟨1, false⟩], [some 5, none, none], 1⟩ :
            MultiInputValue).values.set i (some 9),
          provided_value_count := 2 } :=
  claim_C6_add_value_first_matching
    ⟨[⟨1, false⟩, ⟨2, false⟩, ⟨1, false⟩], [some 5, none, none], 1⟩ ⟨1, false⟩ 9 2 rfl rfl

/-- Pointwise access through `List.zipWith`. -/
theorem zipWith_getElem_some (f : OutputSocketRef → OutputState → OutputState) :
    ∀ (as : List OutputSocketRef) (bs : List OutputState) (i : Nat) (a : OutputSocketRef)
      (b : OutputState), as[i]? = some a → bs[i]? = some b →
      (List.zipWith f as bs)[i]? = some (f a b) := by
  intro as
  induction as with
  | nil => intro bs i a b ha hb; simp at ha
  | cons a0 as ih =>
      intro bs i a b ha hb
      cases bs with
      | nil => simp at hb
      | cons b0 bs =>
          cases i with
          | zero =>
              rw [List.getElem?_cons_zero] at ha hb
              rw [List.zipWith_cons_cons, List.getElem?_cons_zero,
                Option.some.inj ha, Option.some.inj hb]
          | succ i =>
              rw [List.getElem?_cons_succ] at ha hb
              rw [List.zipWith_cons_cons, List.getElem?_cons_succ]
              exact ih bs i a b ha hb

/-- C7: when a node has neither an execute callback nor a multi-function,
`execute_unknown_node` marks every available output socket with a data type
as computed and forwards the type's default value from it. -/
theorem claim_C7_unknown_node_defaults (sockets : List OutputSocketRef)
    (outputs : List OutputState) (i : Nat) (sock : OutputSocketRef) (t : Nat)
    (o : OutputState) (hsock : sockets[i]? = some sock) (havail : sock.available = true)
    (hty : sock.ty = some t) (hout : outputs[i]? = some o) :
    (execute_unknown_node sockets outputs).1[i]? =
      some { o with has_been_computed := true } ∧
    (i, t) ∈ (execute_unknown_node sockets outputs).2 := by
  constructor
  · show (List.zipWith _ sockets outputs)[i]? = _
    rw [zipWith_getElem_some _ sockets outputs i sock o hsock hout]
    rw [if_pos ⟨havail, by rw [hty]; rfl⟩]
  · show (i, t) ∈ executeUnknownForwards sockets
    apply List.mem_filterMap.mpr
    refine ⟨i, ?_, ?_⟩
    · apply List.mem_range.mpr
      by_contra hnot
      have hlen : sockets.length ≤ i := Nat.le_of_not_lt hnot
      rw [List.getElem?_eq_none hlen] at hsock
      exact absurd hsock (by simp)
    · simp only [hsock, havail, hty]
      rfl

/-- C7 witness: one available float output on a callback-less node. -/
theorem claim_C7_unknown_node_defaults_witness :
    (execute_unknown_node [⟨true, some 3⟩] [⟨false, .Maybe, .Maybe, 0⟩]).1[0]? =
      some { (⟨false, .Maybe, .Maybe, 0⟩ : OutputState) with has_been_computed := true } ∧
    (0, 3) ∈ (execute_unknown_node [⟨true, some 3⟩] [⟨false, .Maybe, .Maybe, 0⟩]).2 :=
  claim_C7_unknown_node_defaults [⟨true, some 3⟩] [⟨false, .Maybe, .Maybe, 0⟩] 0
    ⟨true, some 3⟩ 3 ⟨false, .Maybe, .Maybe, 0⟩ rfl rfl rfl rfl

/-- C8: `convert_value` never fails: for distinct types with neither a
field-level base conversion nor a direct registry conversion it constructs
the destination type's default value; when both sides are field-capable
wrappers with convertible base types the conversion happens at the field
level (lazily) when the source holds a field and eagerly on the base value
otherwise; and an available direct registry conversion is applied. -/
theorem claim_C8_convert_value :
    (∀ (baseConv : Nat → Nat → Bool) (conv : CPPType → CPPType → Bool)
        (fromTy toTy : CPPType) (fromHoldsField : Bool),
      fromTy ≠ toTy →
      (∀ fb tb, fromTy.fieldBase = some fb → toTy.fieldBase = some tb →
        baseConv fb tb = false) →
      conv fromTy toTy = false →
      convert_value baseConv conv fromTy toTy fromHoldsField = .defaulted) ∧
    (∀ (baseConv : Nat → Nat → Bool) (conv : CPPType → CPPType → Bool)
        (fromTy toTy : CPPType) (fb tb : Nat),
      fromTy ≠ toTy → fromTy.fieldBase = some fb → toTy.fieldBase = some tb →
      baseConv fb tb = true →
      convert_value baseConv conv fromTy toTy true = .fieldLazy ∧
      convert_value baseConv conv fromTy toTy false = .baseEager) ∧
    (∀ (baseConv : Nat → Nat → Bool) (conv : CPPType → CPPType → Bool)
        (fromTy toTy : CPPType) (fromHoldsField : Bool),
      fromTy ≠ toTy →
      (∀ fb tb, fromTy.fieldBase = some fb → toTy.fieldBase = some tb →
        baseConv fb tb = false) →
      conv fromTy toTy = true →
      convert_value baseConv conv fromTy toTy fromHoldsField = .directConverted) := by
  refine ⟨?_, ?_, ?_⟩
  · intro baseConv conv fromTy toTy fromHoldsField hne hnb hnc
    obtain ⟨fid, ffb⟩ := fromTy
    obtain ⟨tid, tfb⟩ := toTy
    simp only [convert_value]
    rw [if_neg hne]
    cases ffb with
    | none => cases tfb <;> simp [hnc]
    | some fb =>
        cases tfb with
        | none => simp [hnc]
        | some tb => simp [hnb fb tb rfl rfl, hnc]
  · intro baseConv conv fromTy toTy fb tb hne hfb htb hbc
    obtain ⟨fid, ffb⟩ := fromTy
    obtain ⟨tid, tfb⟩ := toTy
    simp only at hfb htb
    subst hfb
    subst htb
    constructor <;> simp [convert_value, hne, hbc]
  · intro baseConv conv fromTy toTy fromHoldsField hne hnb hc
    obtain ⟨fid, ffb⟩ := fromTy
    obtain ⟨tid, tfb⟩ := toTy
    simp only [convert_value]
    rw [if_neg hne]
    cases ffb with
    | none => cases tfb <;> simp [hc]
    | some fb =>
        cases tfb with
        | none => simp [hc]
        | some tb => simp [hnb fb tb rfl rfl, hc]

/-- C8 witness: distinct non-field types with an empty conversion registry
fall back to the destination default. -/
theorem claim_C8_convert_value_witness :
    convert_value (fun _ _ => false) (fun _ _ => false) ⟨0, none⟩ ⟨1, none⟩ false =
      .defaulted :=
  claim_C8_convert_value.1 (fun _ _ => false) (fun _ _ => false) ⟨0, none⟩ ⟨1, none⟩ false
    (by decide) (fun fb tb h1 h2 => rfl) rfl

end GNEval

namespace GPUShader

/-- Mirrors `ShaderCreateInfo::Resource::BindType`. -/
inductive BindType where
  | UNIFORM_BUFFER
  | STORAGE_BUFFER
  | SAMPLER
  | IMAGE
deriving DecidableEq, Repr

/-- The parts of `ShaderCreateInfo::Resource` that `validate` reads. -/
structure Resource where
  bind_type : BindType
  slot : Int
deriving DecidableEq, Repr

/-- Membership-checking insertion mirroring `blender::Set<int>::add`: returns
whether the element was newly added, together with the updated set (embedded
as the list of elements added so far). -/
def setAdd (s : List Int) (x : Int) : Bool × List Int :=
  if x ∈ s then (false, s) else (true, x :: s)

/-- The four `Set<int>` locals of `ShaderCreateInfo::validate`:
`Set<int> images, samplers, ubos, ssbos`. -/
structure SlotSets where
  images : List Int := []
  samplers : List Int := []
  ubos : List Int := []
  ssbos : List Int := []
deriving DecidableEq, Repr

/-- Mirrors the `register_resource` lambda inside
`ShaderCreateInfo::validate`, including which `Set<int>` each bind type's
slot is inserted into (`UNIFORM_BUFFER → images.add`,
`STORAGE_BUFFER → samplers.add`, `SAMPLER → ubos.add`,
`IMAGE → ssbos.add`, exactly as in the source). -/
def register_resource (sets : SlotSets) (res : Resource) : Bool × SlotSets :=
  match res.bind_type with
  | .UNIFORM_BUFFER =>
      let (fresh, s) := setAdd sets.images res.slot
      (fresh, { sets with images := s })
  | .STORAGE_BUFFER =>
      let (fresh, s) := setAdd sets.samplers res.slot
      (fresh, { sets with samplers := s })
  | .SAMPLER =>
      let (fresh, s) := setAdd sets.ubos res.slot
      (fresh, { sets with ubos := s })
  | .IMAGE =>
      let (fresh, s) := setAdd sets.ssbos res.slot
      (fresh, { sets with ssbos := s })

/-- Loop of `ShaderCreateInfo::validate` over resources: register each one
and collect those for which `register_resource` returned `false` (the ones
that trigger `print_error_msg`). -/
def validateGo (sets : SlotSets) : List Resource → List Resource
  | [] => []
  | res :: rest =>
      let (fresh, sets') := register_resource sets res
      if fresh then validateGo sets' rest
      else res :: validateGo sets' rest

/-- Mirrors the `!auto_resource_location_` branch of
`ShaderCreateInfo::validate`: iterate over `batch_resources_` then
`pass_resources_`, registering every slot and reporting each resource whose
registration detected an overlap. Returns the resources that produced the
overlap error message. -/
def validate (batch_resources pass_resources : List Resource) : List Resource :=
  validateGo {} (batch_resources ++ pass_resources)

/-- Modelled from the spec: per-category slot uniqueness. A per-bind-type
record of which slots have been seen; resources are reported exactly when
their slot was already seen within their own bind-type category. This is the
behaviour the spec describes as the apparent intent of `validate`. -/
def specSeen (seen : BindType → List Int) (res : Resource) : Bool :=
  res.slot ∈ seen res.bind_type

/-- Modelled from the spec: insert a slot into its own bind-type category
(with set semantics: a slot already seen in that category is not added
again). -/
def specInsert (seen : BindType → List Int) (res : Resource) : BindType → List Int :=
  fun bt =>
    if bt = res.bind_type then
      (if res.slot ∈ seen bt then seen bt else res.slot :: seen bt)
    else seen bt

/-- Modelled from the spec: scan the resources, reporting every resource
whose slot duplicates an earlier slot of the same bind-type category. -/
def perCategoryDuplicates (seen : BindType → List Int) : List Resource → List Resource
  | [] => []
  | res :: rest =>
      if specSeen seen res then res :: perCategoryDuplicates (specInsert seen res) rest
      else perCategoryDuplicates (specInsert seen res) rest

/-- Which per-category slot list a bind type's slots actually end up in,
reading back through the cross-wired insertion of `register_resource`. -/
def seenOf (sets : SlotSets) : BindType → List Int
  | .UNIFORM_BUFFER => sets.images
  | .STORAGE_BUFFER => sets.samplers
  | .SAMPLER => sets.ubos
  | .IMAGE => sets.ssbos

/-- One registration step agrees with the per-category spec: the returned
flag is the freshness of the slot within the resource's own bind-type
category, and the tracked slots change by inserting the slot into exactly
that category. -/
theorem seenOf_register (sets : SlotSets) (res : Resource) :
    (register_resource sets res).1 = !(specSeen (seenOf sets) res) ∧
    seenOf (register_resource sets res).2 = specInsert (seenOf sets) res := by
  obtain ⟨bt, slot⟩ := res
  cases bt with
  | UNIFORM_BUFFER =>
      by_cases hmem : slot ∈ sets.images
      · refine ⟨by simp [register_resource, setAdd, specSeen, seenOf, hmem], ?_⟩
        funext bt2
        cases bt2 <;> simp [register_resource, setAdd, specInsert, specSeen, seenOf, hmem]
      · refine ⟨by simp [register_resource, setAdd, specSeen, seenOf, hmem], ?_⟩
        funext bt2
        cases bt2 <;> simp [register_resource, setAdd, specInsert, specSeen, seenOf, hmem]
  | STORAGE_BUFFER =>
      by_cases hmem : slot ∈ sets.samplers
      · refine ⟨by simp [register_resource, setAdd, specSeen, seenOf, hmem], ?_⟩
        funext bt2
        cases bt2 <;> simp [register_resource, setAdd, specInsert, specSeen, seenOf, hmem]
      · refine ⟨by simp [register_resource, setAdd, specSeen, seenOf, hmem], ?_⟩
        funext bt2
        cases bt2 <;> simp [register_resource, setAdd, specInsert, specSeen, seenOf, hmem]
  | SAMPLER =>
      by_cases hmem : slot ∈ sets.ubos
      · refine ⟨by simp [register_resource, setAdd, specSeen, seenOf, hmem], ?_⟩
        funext bt2
        cases bt2 <;> simp [register_resource, setAdd, specInsert, specSeen, seenOf, hmem]
      · refine ⟨by simp [register_resource, setAdd, specSeen, seenOf, hmem], ?_⟩
        funext bt2
        cases bt2 <;> simp [register_resource, setAdd, specInsert, specSeen, seenOf, hmem]
  | IMAGE =>
      by_cases hmem : slot ∈ sets.ssbos
      · refine ⟨by simp [register_resource, setAdd, specSeen, seenOf, hmem], ?_⟩
        funext bt2
        cases bt2 <;> simp [register_resource, setAdd, specInsert, specSeen, seenOf, hmem]
      · refine ⟨by simp [register_resource, setAdd, specSeen, seenOf, hmem], ?_⟩
        funext bt2
        cases bt2 <;> simp [register_resource, setAdd, specInsert, specSeen, seenOf, hmem]

/-- The validation loop reports exactly the per-category duplicate slots. -/
theorem validateGo_eq : ∀ (rs : List Resource) (sets : SlotSets),
    validateGo sets rs = perCategoryDuplicates (seenOf sets) rs := by
  intro rs
  induction rs with
  | nil => intro sets; rfl
  | cons res rest ih =>
      intro sets
      obtain ⟨hfresh, hins⟩ := seenOf_register sets res
      simp only [validateGo, perCategoryDuplicates]
      cases hreg : register_resource sets res with
      | mk fresh sets2 =>
          rw [hreg] at hfresh hins
          by_cases hseen : specSeen (seenOf sets) res = true
          · rw [if_pos hseen]
            have hf : fresh = false := by
              rw [hseen] at hfresh
              simpa using hfresh
            rw [hf]
            simp only [Bool.false_eq_true, if_false, ite_false]
            rw [ih sets2, hins]
          · rw [if_neg hseen]
            have hs2 : specSeen (seenOf sets) res = false := by
              cases hb : specSeen (seenOf sets) res
              · rfl
              · exact absurd hb hseen
            have hf : fresh = true := by
              rw [hs2] at hfresh
              simpa using hfresh
            rw [hf]
            simp only [if_true, ite_true]
            rw [ih sets2, hins]

/-- C9 counterexample: a uniform-buffer resource's slot is registered into
the `images` set, not the `ubos` set, contradicting the claim that every
resource registers into the set named after its own bind-type category. -/
theorem claim_C9_counterexample :
    (register_resource ⟨[], [], [], []⟩ ⟨.UNIFORM_BUFFER, 3⟩).2.ubos = [] ∧
    (register_resource ⟨[], [], [], []⟩ ⟨.UNIFORM_BUFFER, 3⟩).2.images = [3] := by
  decide

/-- C9 (amended): when automatic resource location assignment is disabled,
every batch and pass resource has its slot registered for uniqueness into a
set determined solely by its own bind type — but the sets are cross-wired
(uniform buffers into `images`, storage buffers into `samplers`, samplers
into `ubos`, images into `ssbos`). Because that assignment is injective,
the registration flag still reports freshness within the resource's own
category, and the resources that trigger the overlap error message are
exactly those whose slot duplicates an earlier slot of the same bind-type
category. -/
theorem claim_C9_validate_per_category :
    (∀ (sets : SlotSets) (res : Resource),
      (register_resource sets res).1 = !(specSeen (seenOf sets) res) ∧
      seenOf (register_resource sets res).2 = specInsert (seenOf sets) res) ∧
    (∀ (batch_resources pass_resources : List Resource),
      validate batch_resources pass_resources =
        perCategoryDuplicates (fun _ => []) (batch_resources ++ pass_resources)) := by
  constructor
  · exact seenOf_register
  · intro batch pass
    have hempty : seenOf ⟨[], [], [], []⟩ = fun _ => [] := by
      funext bt
      cases bt <;> rfl
    rw [validate, validateGo_eq (batch ++ pass) ⟨[], [], [], []⟩, hempty]

end GPUShader
